import Mathlib

/-!
Verification of the pentatonic-scale analysis core (`pentatonic.py`).

The definitions below are a shallow embedding of the symbolic pipeline of the
source: the pitch-model tables, the chord parser `get_root_and_type`, the
pentatonic generator `get_pentatonic_scale_notes`, the transposer
`get_transposition_semitones`, the solfège renderer `get_solfege_name`, the
per-note spelling choice made in `run_analysis_gui`, and the frequency
ranking (`Counter(...).most_common(3)`).  Python strings are modelled as
`String` / `List Char`, dictionaries as association lists, `None` results as
`Option.none`.
-/

namespace Pentatonic

/-- Style of the originally written root: sharp, flat or natural
(the `"sharp" / "flat" / "natural"` strings of the source). -/
inductive NoteStyle
  | sharp
  | flat
  | natural
deriving DecidableEq, Fintype

/-- ENHARMONIC_EQUIVALENTS dictionary of the source. -/
def ENHARMONIC_EQUIVALENTS : List (String × String) :=
  [("C#", "Db"), ("Db", "C#"),
   ("D#", "Eb"), ("Eb", "D#"),
   ("F#", "Gb"), ("Gb", "F#"),
   ("G#", "Ab"), ("Ab", "G#"),
   ("A#", "Bb"), ("Bb", "A#")]

/-- Association-list lookup, modelling Python `dict.get(key)` (returns `None`
when the key is absent). -/
def dictGet (s : String) : List (String × String) → Option String
  | [] => none
  | (k, v) :: kvs => if k = s then some v else dictGet s kvs

/-- `ENHARMONIC_EQUIVALENTS.get(s)`. -/
def enhLookup (s : String) : Option String := dictGet s ENHARMONIC_EQUIVALENTS

/-- `ENHARMONIC_EQUIVALENTS.get(s, dflt)`. -/
def enhGet (s dflt : String) : String := (enhLookup s).getD dflt

/-- NOTES_SHARP list of the source: the twelve chromatic pitch names in sharp
spelling, `C C# D D# E F F# G G# A A# B` (written here as two appended
halves). -/
def NOTES_SHARP : List String :=
  ["C", "C#", "D", "D#", "E", "F"] ++ ["F#", "G", "G#", "A", "A#", "B"]

/-- Index of a string in a list, counting from `i`; helper for `noteToInt`. -/
def idxInList (s : String) : List String → Nat → Option Nat
  | [], _ => none
  | n :: ns, i => if n = s then some i else idxInList s ns (i + 1)

/-- NOTE_TO_INT dictionary of the source (`{note: i for i, note in
enumerate(NOTES_SHARP)}`), as a lookup function. -/
def noteToInt (s : String) : Option Nat := idxInList s NOTES_SHARP 0

/-- SOLFEGE_SHARP list of the source. -/
def SOLFEGE_SHARP : List String :=
  ["ド", "ド#", "レ", "レ#", "ミ", "ファ", "ファ#", "ソ", "ソ#", "ラ", "ラ#", "シ"]

/-- SOLFEGE_FLAT list of the source. -/
def SOLFEGE_FLAT : List String :=
  ["ド", "レb", "レ", "ミb", "ミ", "ファ", "ソb", "ソ", "ラb", "ラ", "シb", "シ"]

/-- Index of the first occurrence of a character, modelling `str.find` on the
code points of the string (the source only uses the result when the character
is present). -/
def charIndexOf (c : Char) : List Char → Nat
  | [] => 0
  | x :: xs => if x = c then 0 else charIndexOf c xs + 1

/-- Minor-marker detection phase of `get_root_and_type` (source lines 36-45):
`is_minor_chord` together with `root_part_candidate`.  The source inspects the
first occurrence of `'m'` (`code_name_raw.find("m")`): the chord is minor iff
that occurrence is after the first character and is the last character or is
followed by a non-letter; in that case the part before it is the root
candidate, otherwise the whole string is. -/
def minorAndCandidate (cs : List Char) : Bool × List Char :=
  if 'm' ∈ cs then
    let mIdx := charIndexOf 'm' cs
    if 0 < mIdx ∧ (mIdx + 1 = cs.length ∨ (cs.getD (mIdx + 1) ' ').isAlpha = false) then
      (true, cs.take mIdx)
    else
      (false, cs)
  else
    (false, cs)

/-- Validity test of a potential root (source line 51):
`potential_root in NOTES_SHARP or potential_root in ENHARMONIC_EQUIVALENTS`. -/
def isValidSpelling (cs : List Char) : Prop :=
  String.mk cs ∈ NOTES_SHARP ∨ (enhLookup (String.mk cs)).isSome = true

instance (cs : List Char) : Decidable (isValidSpelling cs) := by
  unfold isValidSpelling; infer_instance

/-- Style classification of the resolved root (source lines 55-60). -/
def styleOf (cs : List Char) : NoteStyle :=
  if '#' ∈ cs then NoteStyle.sharp
  else if 'b' ∈ cs ∨ '♭' ∈ cs then NoteStyle.flat
  else NoteStyle.natural

/-- Style classification at the string level. -/
def styleOfStr (r : String) : NoteStyle := styleOf r.toList

/-- Root-resolution loop of `get_root_and_type` (source lines 48-62):
`for i in range(len(candidate), 0, -1)` — test prefixes from the longest down
to length 1, first (longest) valid prefix wins. -/
def findRoot (cs : List Char) : Nat → Option (List Char)
  | 0 => none
  | n + 1 =>
    if isValidSpelling (cs.take (n + 1)) then some (cs.take (n + 1))
    else findRoot cs n

/-- `get_root_and_type`, on the character list of the input.  `none` models the
`(None, None, None)` failure triple. -/
def getRootAndTypeCore (cs : List Char) : Option (List Char × Bool × NoteStyle) :=
  if cs = [] then none
  else
    let mc := minorAndCandidate cs
    match findRoot mc.2 mc.2.length with
    | some root => some (root, mc.1, styleOf root)
    | none =>
      match mc.2 with
      | [] => none
      | c0 :: _ =>
        if String.mk [c0] ∈ NOTES_SHARP then some ([c0], mc.1, NoteStyle.natural)
        else none

/-- `get_root_and_type` on a Lean string. -/
def getRootAndType (s : String) : Option (String × Bool × NoteStyle) :=
  (getRootAndTypeCore s.toList).map (fun r => (String.mk r.1, r.2.1, r.2.2))

/-- Root candidate computed by the parser for an input string. -/
def candOf (s : String) : List Char := (minorAndCandidate s.toList).2

/-- Interval pattern chosen at source line 94. -/
def intervalsFor (isMinor : Bool) : List Nat :=
  if isMinor then [0, 3, 5, 7, 10] else [0, 2, 4, 7, 9]

/-- Scale construction at source line 97:
`[NOTES_SHARP[(root_int + i) % 12] for i in intervals]`. -/
def scaleNotesSharp (rootInt : Nat) (isMinor : Bool) : List String :=
  (intervalsFor isMinor).map (fun i => NOTES_SHARP.getD ((rootInt + i) % 12) "")

/-- `get_pentatonic_scale_notes` (source lines 72-99). -/
def getPentatonicScaleNotes (s : String) : Option (List String × Bool × NoteStyle) :=
  match getRootAndType s with
  | none => none
  | some (rootStr, isMinor, nt) =>
    if rootStr = "" then none
    else
      let rootForCalc :=
        if rootStr.toList.contains 'b' || rootStr.toList.contains '♭' then
          enhLookup rootStr
        else some rootStr
      match rootForCalc with
      | none => none
      | some rfc =>
        match noteToInt rfc with
        | none => none
        | some rootInt => some (scaleNotesSharp rootInt isMinor, isMinor, nt)

/-- Whitespace stripping of both ends, modelling `str.strip()`. -/
def stripWs (cs : List Char) : List Char :=
  ((cs.dropWhile Char.isWhitespace).reverse.dropWhile Char.isWhitespace).reverse

/-- `instrument_key.strip().upper()` (source line 106). -/
def normalizeKey (s : String) : String :=
  String.mk ((stripWs s.toList).map Char.toUpper)

/-- `get_transposition_semitones` (source lines 101-115); the dictionary lookup
`transpositions.get(key, None)` becomes a chain of key comparisons. -/
def getTranspositionSemitones (s : String) : Option Nat :=
  let key := normalizeKey s
  if key = "C" then some 0
  else if key = "BB" then some 2
  else if key = "B♭" then some 2
  else if key = "EB" then some 9
  else if key = "E♭" then some 9
  else if key = "F" then some 7
  else none

/-- Transposition of a pitch class (source line 294):
`(idx_sharp + transposition) % 12`. -/
def transposePc (pc offset : Nat) : Nat := (pc + offset) % 12

/-- Flat-spelling test used by `get_solfege_name` (source line 124):
`'b' in note or '♭' in note`. -/
def isFlatSpelled (note : String) : Bool :=
  note.toList.contains 'b' || note.toList.contains '♭'

/-- Note used for the table lookup inside `get_solfege_name` (source
lines 127-130): a flat-spelled note is translated back to sharp spelling. -/
def noteForIdxOf (note : String) : String :=
  if isFlatSpelled note then enhGet note note else note

/-- `get_solfege_name` (source lines 117-146). -/
def getSolfegeName (note base : String) : String :=
  match noteToInt (noteForIdxOf note) with
  | none => note
  | some noteIndex =>
    let baseIndex := (noteToInt base).getD ((noteToInt "C").getD 0)
    let relativeIndex := (((noteIndex : Int) - (baseIndex : Int) + 12) % 12).toNat
    if isFlatSpelled note then SOLFEGE_FLAT.getD relativeIndex ""
    else SOLFEGE_SHARP.getD relativeIndex ""

/-- Spelling choice of `run_analysis_gui` for one transposed scale note
(source lines 297-307 and 350-358): prefer the flat spelling when the chord's
style is flat or it is natural-and-minor, with `D#`/`G#`/`A#` forced to
`Eb`/`Ab`/`Bb` for minor chords. -/
def noteForSolfege (transposedNoteSharp : String) (nt : NoteStyle) (isMinor : Bool) : String :=
  if nt = NoteStyle.flat ∨ (nt = NoteStyle.natural ∧ isMinor = true) then
    let n := enhGet transposedNoteSharp transposedNoteSharp
    if isMinor then
      if transposedNoteSharp = "D#" then "Eb"
      else if transposedNoteSharp = "G#" then "Ab"
      else if transposedNoteSharp = "A#" then "Bb"
      else n
    else n
  else transposedNoteSharp

/-- Keys of `Counter(l)` in Python dict order, i.e. in order of first
occurrence in `l`. -/
def keysInOrder : List String → List String
  | [] => []
  | x :: xs => x :: (keysInOrder xs).filter (fun y => y != x)

/-- `Counter(l)` as an ordered association list: each distinct element of `l`,
in order of first occurrence, with its number of occurrences. -/
def tally (l : List String) : List (String × Nat) :=
  (keysInOrder l).map (fun k => (k, l.count k))

/-- Stable insertion into a count-descending list; an element is placed before
the first entry whose count does not exceed it. -/
def insertDesc (x : String × Nat) : List (String × Nat) → List (String × Nat)
  | [] => [x]
  | y :: ys => if y.2 ≤ x.2 then x :: y :: ys else y :: insertDesc x ys

/-- Stable sort by descending count, modelling
`sorted(items, key=itemgetter(1), reverse=True)` (what
`Counter.most_common` is documented to be equivalent to). -/
def sortDesc : List (String × Nat) → List (String × Nat)
  | [] => []
  | x :: xs => insertDesc x (sortDesc xs)

/-- `Counter(l).most_common(3)` (source lines 312-313). -/
def mostCommon3 (l : List String) : List (String × Nat) :=
  (sortDesc (tally l)).take 3

/-- Index of the first occurrence of a string in a list (total; only used on
members). -/
def firstIndexOf (a : String) : List String → Nat
  | [] => 0
  | x :: xs => if x = a then 0 else firstIndexOf a xs + 1

/-- Spelling the spec's renderer selection rule chooses for the transposed
pitch class `t`: the flat spelling (via the equivalence map, with the three
forced minor-case spellings) when the chord's style was flat or it was
natural-and-minor, and the sharp spelling otherwise. -/
def specChosenSpelling (t : Nat) (nt : NoteStyle) (m : Bool) : String :=
  let sharpName := NOTES_SHARP.getD (t % 12) ""
  if nt = NoteStyle.flat ∨ (nt = NoteStyle.natural ∧ m = true) then
    if m = true ∧ sharpName = "D#" then "Eb"
    else if m = true ∧ sharpName = "G#" then "Ab"
    else if m = true ∧ sharpName = "A#" then "Bb"
    else enhGet sharpName sharpName
  else sharpName

/-- Syllable the spec's rendering rule produces: the entry at index
`(pitchClass_index - reference_index + 12) mod 12` (reference `"C"`, index 0)
of the flat alphabet when the chosen spelling is flat, of the sharp alphabet
otherwise. -/
def specSyllable (t : Nat) (nt : NoteStyle) (m : Bool) : String :=
  let chosen := specChosenSpelling t nt m
  let idx := ((((t % 12 : Nat) : Int) - 0 + 12) % 12).toNat
  if isFlatSpelled chosen then SOLFEGE_FLAT.getD idx ""
  else SOLFEGE_SHARP.getD idx ""

/-- Ranking order required of the frequency list: an entry comes before
another when its count is strictly greater, or the counts are equal and its
priority `f` (position of first occurrence) is strictly smaller. -/
def rankedBefore (f : String × Nat → Nat) (a b : String × Nat) : Prop :=
  b.2 < a.2 ∨ (a.2 = b.2 ∧ f a < f b)

/-- Claim C2's minor-marker condition, read over every occurrence of `'m'` in
the string: some position `i` holds `'m'`, is after the first character, and
is the last character or is followed by a non-letter. -/
def hasClaimMinorMarker (cs : List Char) : Bool :=
  (List.range cs.length).any (fun i =>
    (cs.getD i ' ' == 'm') && decide (0 < i) &&
      ((i + 1 == cs.length) || !(cs.getD (i + 1) ' ').isAlpha))

/-- Position `i` is the first `'m'` of the string and satisfies the minor-marker
adjacency condition (after the first character; last or followed by a
non-letter). -/
def firstMinorMarkerAt (cs : List Char) (i : Nat) : Prop :=
  i < cs.length ∧ cs.getD i ' ' = 'm' ∧ (∀ j < i, cs.getD j ' ' ≠ 'm') ∧
    0 < i ∧ (i + 1 = cs.length ∨ (cs.getD (i + 1) ' ').isAlpha = false)

/-! Helper lemmas about the parser. -/

theorem charIndexOf_getD {c : Char} : ∀ {cs : List Char}, c ∈ cs →
    cs.getD (charIndexOf c cs) ' ' = c := by
  intro cs h
  induction cs with
  | nil => cases h
  | cons x xs ih =>
    by_cases hx : x = c
    · simp [charIndexOf, hx]
    · have hm : c ∈ xs := by
        rcases List.mem_cons.mp h with h1 | h1
        · exact absurd h1.symm hx
        · exact h1
      rw [charIndexOf, if_neg hx, List.getD_cons_succ]
      exact ih hm

theorem charIndexOf_lt {c : Char} : ∀ {cs : List Char}, c ∈ cs →
    charIndexOf c cs < cs.length := by
  intro cs h
  induction cs with
  | nil => cases h
  | cons x xs ih =>
    by_cases hx : x = c
    · simp [charIndexOf, hx]
    · have hm : c ∈ xs := by
        rcases List.mem_cons.mp h with h1 | h1
        · exact absurd h1.symm hx
        · exact h1
      simpa [charIndexOf, hx] using ih hm

theorem charIndexOf_min {c : Char} : ∀ (cs : List Char) (j : Nat),
    j < charIndexOf c cs → cs.getD j ' ' ≠ c := by
  intro cs
  induction cs with
  | nil => intro j hj; simp [charIndexOf] at hj
  | cons x xs ih =>
    intro j hj
    by_cases hx : x = c
    · simp [charIndexOf, hx] at hj
    · rw [charIndexOf, if_neg hx] at hj
      cases j with
      | zero => simpa using hx
      | succ j => simpa using ih j (by omega)

theorem getD_mem {cs : List Char} {i : Nat} {c : Char}
    (h : i < cs.length) (he : cs.getD i ' ' = c) : c ∈ cs := by
  rw [List.getD_eq_getElem cs ' ' h] at he
  exact he ▸ List.getElem_mem h

theorem firstM_eq {cs : List Char} {i : Nat} (hlen : i < cs.length)
    (hgm : cs.getD i ' ' = 'm') (hmin : ∀ j < i, cs.getD j ' ' ≠ 'm') :
    i = charIndexOf 'm' cs := by
  have hm : 'm' ∈ cs := getD_mem hlen hgm
  rcases lt_trichotomy i (charIndexOf 'm' cs) with h1 | h1 | h1
  · exact absurd hgm (charIndexOf_min cs i h1)
  · exact h1
  · exact absurd (charIndexOf_getD hm) (hmin _ h1)

theorem findRoot_eq_none {cs : List Char} : ∀ {n : Nat},
    findRoot cs n = none ↔ ∀ i, 0 < i → i ≤ n → ¬ isValidSpelling (cs.take i) := by
  intro n
  induction n with
  | zero =>
    constructor
    · intro _ i h1 h2
      omega
    · intro _
      rfl
  | succ n ih =>
    constructor
    · intro h i h1 h2
      by_cases hv : isValidSpelling (cs.take (n + 1))
      · rw [findRoot, if_pos hv] at h
        exact Option.noConfusion h
      · rw [findRoot, if_neg hv] at h
        rcases Nat.eq_or_lt_of_le h2 with h3 | h3
        · exact h3 ▸ hv
        · exact ih.mp h i h1 (by omega)
    · intro h
      rw [findRoot, if_neg (h (n + 1) (Nat.succ_pos n) le_rfl)]
      exact ih.mpr (fun i h1 h2 => h i h1 (Nat.le_trans h2 (Nat.le_succ n)))

theorem findRoot_eq_some {cs : List Char} : ∀ {n : Nat} {r : List Char},
    findRoot cs n = some r →
      ∃ i, 0 < i ∧ i ≤ n ∧ r = cs.take i ∧ isValidSpelling (cs.take i) ∧
        ∀ j, i < j → j ≤ n → ¬ isValidSpelling (cs.take j) := by
  intro n
  induction n with
  | zero => intro r h; exact Option.noConfusion h
  | succ n ih =>
    intro r h
    by_cases hv : isValidSpelling (cs.take (n + 1))
    · rw [findRoot, if_pos hv] at h
      injection h with h2
      refine ⟨n + 1, Nat.succ_pos n, le_rfl, h2.symm, hv, ?_⟩
      intro j hj1 hj2
      omega
    · rw [findRoot, if_neg hv] at h
      obtain ⟨i, hi0, hin, hr, hval, hmax⟩ := ih h
      refine ⟨i, hi0, Nat.le_trans hin (Nat.le_succ n), hr, hval, ?_⟩
      intro j hj1 hj2
      rcases Nat.eq_or_lt_of_le hj2 with h3 | h3
      · exact h3 ▸ hv
      · exact hmax j hj1 (by omega)

theorem minorAndCandidate_cond {cs : List Char} (hm : 'm' ∈ cs)
    (hc : 0 < charIndexOf 'm' cs ∧ (charIndexOf 'm' cs + 1 = cs.length
      ∨ (cs.getD (charIndexOf 'm' cs + 1) ' ').isAlpha = false)) :
    minorAndCandidate cs = (true, cs.take (charIndexOf 'm' cs)) := by
  unfold minorAndCandidate
  rw [if_pos hm]
  dsimp only
  rw [if_pos hc]

theorem minorAndCandidate_notCond {cs : List Char} (hm : 'm' ∈ cs)
    (hc : ¬ (0 < charIndexOf 'm' cs ∧ (charIndexOf 'm' cs + 1 = cs.length
      ∨ (cs.getD (charIndexOf 'm' cs + 1) ' ').isAlpha = false))) :
    minorAndCandidate cs = (false, cs) := by
  unfold minorAndCandidate
  rw [if_pos hm]
  dsimp only
  rw [if_neg hc]

theorem minorAndCandidate_noM {cs : List Char} (hm : ¬ 'm' ∈ cs) :
    minorAndCandidate cs = (false, cs) := by
  unfold minorAndCandidate
  rw [if_neg hm]

theorem core_some (cs : List Char) (hnil : ¬ cs = []) (root : List Char)
    (hf : findRoot (minorAndCandidate cs).2 (minorAndCandidate cs).2.length = some root) :
    getRootAndTypeCore cs = some (root, (minorAndCandidate cs).1, styleOf root) := by
  simp only [getRootAndTypeCore, if_neg hnil]
  rw [hf]

theorem core_none (cs : List Char) (hnil : ¬ cs = [])
    (hf : findRoot (minorAndCandidate cs).2 (minorAndCandidate cs).2.length = none) :
    getRootAndTypeCore cs = none := by
  unfold getRootAndTypeCore
  rw [if_neg hnil]
  dsimp only
  split
  · next root heq => rw [hf] at heq; exact Option.noConfusion heq
  · split
    · rfl
    · next c0 rest heq2 =>
      rw [heq2] at hf
      have h1 : ¬ isValidSpelling ((c0 :: rest).take 1) :=
        findRoot_eq_none.mp hf 1 one_pos (by simp)
      have hmem : ¬ String.mk [c0] ∈ NOTES_SHARP := fun hm => h1 (Or.inl hm)
      rw [if_neg hmem]

/-! Theorems settling the claims. -/

/-- C1: for every root pitch class (0-11) and minor flag, the generator
returns the ordered 5-element list of `(root + interval) mod 12` for intervals
`[0,2,4,7,9]` (major) and `[0,3,5,7,10]` (minor), each element in canonical
sharp spelling; it always yields exactly 5 distinct pitch classes including
the root, with `generate(C, major) = [C, D, E, G, A]` and
`generate(A, minor) = [A, C, D, E, G]`. -/
theorem c1_pentatonic_generator :
    (∀ (r : Fin 12) (m : Bool),
        (scaleNotesSharp (r : Nat) m).map noteToInt
            = (intervalsFor m).map (fun i => some (((r : Nat) + i) % 12))
        ∧ (scaleNotesSharp (r : Nat) m).length = 5
        ∧ ((scaleNotesSharp (r : Nat) m).map noteToInt).Nodup
        ∧ NOTES_SHARP.getD (r : Nat) "" ∈ scaleNotesSharp (r : Nat) m)
    ∧ intervalsFor false = [0, 2, 4, 7, 9]
    ∧ intervalsFor true = [0, 3, 5, 7, 10]
    ∧ scaleNotesSharp 0 false = ["C", "D", "E", "G", "A"]
    ∧ scaleNotesSharp 9 true = ["A", "C", "D", "E", "G"]
    ∧ getPentatonicScaleNotes "C"
        = some (["C", "D", "E", "G", "A"], false, NoteStyle.natural)
    ∧ getPentatonicScaleNotes "Am"
        = some (["A", "C", "D", "E", "G"], true, NoteStyle.natural) := by
  decide

/-- C4: for every transposed pitch class, style and minor flag, the spelling
the pipeline presents is the one the spec's precedence rule chooses (flat when
the style was flat or natural-and-minor, with `D#`/`G#`/`A#` forced to
`Eb`/`Ab`/`Bb` for minor chords, sharp otherwise), and the rendered syllable
is the entry at index `(pitchClass_index - reference_index + 12) mod 12`
(reference `"C"`/do) of the flat syllable alphabet when the chosen spelling is
flat and of the sharp syllable alphabet otherwise. -/
theorem c4_spelling_and_syllable :
    ∀ (t : Fin 12) (nt : NoteStyle) (m : Bool),
      noteForSolfege (NOTES_SHARP.getD (t : Nat) "") nt m
          = specChosenSpelling (t : Nat) nt m
      ∧ getSolfegeName (noteForSolfege (NOTES_SHARP.getD (t : Nat) "") nt m) "C"
          = specSyllable (t : Nat) nt m := by
  decide

/-- C5: the transposer maps `C`→0, `Bb`→2, `Eb`→9, `F`→7, case-insensitively
and accepting the ASCII-`b` and flat-glyph spellings of Bb/Eb; the transposed
pitch class is `(pitchClass + offset) mod 12`, so `transpose(C, Bb) = D` and
`transpose(C, Eb) = A`; every key string outside the table yields `none`
rather than a default offset. -/
theorem c5_transposition_table :
    (getTranspositionSemitones "C" = some 0
      ∧ getTranspositionSemitones "c" = some 0
      ∧ getTranspositionSemitones "Bb" = some 2
      ∧ getTranspositionSemitones "bb" = some 2
      ∧ getTranspositionSemitones "B♭" = some 2
      ∧ getTranspositionSemitones "b♭" = some 2
      ∧ getTranspositionSemitones "Eb" = some 9
      ∧ getTranspositionSemitones "eb" = some 9
      ∧ getTranspositionSemitones "E♭" = some 9
      ∧ getTranspositionSemitones "F" = some 7
      ∧ getTranspositionSemitones "f" = some 7
      ∧ transposePc 0 2 = 2 ∧ NOTES_SHARP.getD (transposePc 0 2) "" = "D"
      ∧ transposePc 0 9 = 9 ∧ NOTES_SHARP.getD (transposePc 0 9) "" = "A")
    ∧ (∀ s : String, getTranspositionSemitones s = none
        ∨ normalizeKey s ∈ (["C", "BB", "B♭", "EB", "E♭", "F"] : List String)) := by
  refine ⟨by decide, ?_⟩
  intro s
  simp only [getTranspositionSemitones]
  split_ifs with h1 h2 h3 h4 h5 h6
  · exact Or.inr (by rw [h1]; decide)
  · exact Or.inr (by rw [h2]; decide)
  · exact Or.inr (by rw [h3]; decide)
  · exact Or.inr (by rw [h4]; decide)
  · exact Or.inr (by rw [h5]; decide)
  · exact Or.inr (by rw [h6]; decide)
  · exact Or.inl rfl

/-- C9: transposing a pitch class by the offset of any supported instrument
key and then by the inverse offset `(12 - offset) mod 12` yields the original
pitch class. -/
theorem c9_transpose_round_trip :
    ∀ (s : String) (o p : Nat), getTranspositionSemitones s = some o → p < 12 →
      transposePc (transposePc p o) ((12 - o) % 12) = p := by
  intro s o p h hp
  simp only [getTranspositionSemitones] at h
  split_ifs at h <;>
    first
      | exact Option.noConfusion h
      | (injection h with h2; subst h2; simp only [transposePc]; omega)

/-- C9 witness: the round trip at pitch class 5 through the `Bb` key. -/
theorem c9_transpose_round_trip_witness :
    transposePc (transposePc 5 2) ((12 - 2) % 12) = 5 :=
  c9_transpose_round_trip "Bb" 2 5 (by decide) (by decide)

/-- C8: the solfège renderer returns its input unchanged whenever the
equivalence-mapped note has no entry in the pitch table, and for every note
the pipeline can feed it (the spelling chosen for any of the twelve transposed
pitch classes, any style, any minor flag) that table lookup succeeds, so the
fallback never fires in the pipeline. -/
theorem c8_solfege_fallback :
    (∀ note : String, noteToInt (noteForIdxOf note) = none →
        getSolfegeName note "C" = note)
    ∧ (∀ (t : Fin 12) (nt : NoteStyle) (m : Bool),
        (noteToInt (noteForIdxOf
          (noteForSolfege (NOTES_SHARP.getD (t : Nat) "") nt m))).isSome = true) := by
  constructor
  · intro note h
    simp only [getSolfegeName, h]
  · decide

/-- C8 witness: the fallback branch at the unknown note `"Hb"`. -/
theorem c8_solfege_fallback_witness : getSolfegeName "Hb" "C" = "Hb" :=
  c8_solfege_fallback.1 "Hb" (by decide)

/-- C10: parsing the empty string yields the same failure value as an
unrecognized chord, without any exceptional behaviour (the embedded parser is
a total function). -/
theorem c10_empty_string_parse :
    getRootAndType "" = none
    ∧ getRootAndType "Hello" = none
    ∧ getRootAndType "" = getRootAndType "Hello" := by
  decide

/-- C2 (amended): only the first occurrence of `'m'` in the chord symbol is
examined; it is treated as the minor marker iff it occurs after the first
character and is either the last character or immediately followed by a
non-letter, in which case the part before it is the root candidate and
otherwise the whole string is; `parse("Cm")` and `parse("Dm7")` are minor and
`parse("Cmaj7")` is not. -/
theorem c2_first_m_minor_marker :
    (∀ cs : List Char,
      ((minorAndCandidate cs).1 = true ↔ ∃ i, firstMinorMarkerAt cs i)
      ∧ (minorAndCandidate cs).2
          = (if (minorAndCandidate cs).1 = true then cs.take (charIndexOf 'm' cs) else cs))
    ∧ getRootAndType "Cm" = some ("C", true, NoteStyle.natural)
    ∧ getRootAndType "Dm7" = some ("D", true, NoteStyle.natural)
    ∧ getRootAndType "Cmaj7" = some ("C", false, NoteStyle.natural) := by
  refine ⟨?_, by decide, by decide, by decide⟩
  intro cs
  constructor
  · constructor
    · intro h
      by_cases hm : 'm' ∈ cs
      · by_cases hc : 0 < charIndexOf 'm' cs ∧ (charIndexOf 'm' cs + 1 = cs.length
            ∨ (cs.getD (charIndexOf 'm' cs + 1) ' ').isAlpha = false)
        · exact ⟨charIndexOf 'm' cs, charIndexOf_lt hm, charIndexOf_getD hm,
            fun j hj => charIndexOf_min cs j hj, hc.1, hc.2⟩
        · rw [minorAndCandidate_notCond hm hc] at h
          exact Bool.noConfusion h
      · rw [minorAndCandidate_noM hm] at h
        exact Bool.noConfusion h
    · rintro ⟨i, hlen, hgm, hmin, hpos, hnext⟩
      have hm : 'm' ∈ cs := getD_mem hlen hgm
      have hidx : i = charIndexOf 'm' cs := firstM_eq hlen hgm hmin
      rw [hidx] at hpos hnext
      rw [minorAndCandidate_cond hm ⟨hpos, hnext⟩]
  · by_cases hm : 'm' ∈ cs
    · by_cases hc : 0 < charIndexOf 'm' cs ∧ (charIndexOf 'm' cs + 1 = cs.length
          ∨ (cs.getD (charIndexOf 'm' cs + 1) ' ').isAlpha = false)
      · rw [minorAndCandidate_cond hm hc]
        simp
      · rw [minorAndCandidate_notCond hm hc]
        simp
    · rw [minorAndCandidate_noM hm]
      simp

/-- C2 witness: the amended statement evaluated at `"Dm7"`, whose `'m'` at
position 1 is the recognized minor marker. -/
theorem c2_first_m_minor_marker_witness :
    (minorAndCandidate "Dm7".toList).1 = true :=
  ((c2_first_m_minor_marker.1 "Dm7".toList).1).mpr
    ⟨1, by decide, by decide, by decide, by decide, by decide⟩

/-- C3: root resolution returns the longest prefix of the root candidate that
is a valid spelling (the twelve sharps plus the five flats), and the parser
fails exactly when no nonempty prefix of the candidate is valid; `"C#"`
resolves to root `C#` (not `C`) and `"F#m7b5"` resolves to root `F#`. -/
theorem c3_root_resolution :
    (∀ s : String,
      (getRootAndType s = none
        ↔ ∀ i, 0 < i → i ≤ (candOf s).length → ¬ isValidSpelling ((candOf s).take i))
      ∧ (∀ r m nt, getRootAndType s = some (r, m, nt) →
          ∃ i, 0 < i ∧ i ≤ (candOf s).length ∧ r = String.mk ((candOf s).take i)
            ∧ isValidSpelling ((candOf s).take i)
            ∧ ∀ j, i < j → j ≤ (candOf s).length → ¬ isValidSpelling ((candOf s).take j)))
    ∧ getRootAndType "C#" = some ("C#", false, NoteStyle.sharp)
    ∧ getRootAndType "F#m7b5" = some ("F#", true, NoteStyle.sharp) := by
  refine ⟨?_, by decide, by decide⟩
  intro s
  simp only [candOf]
  by_cases hnil : s.toList = []
  · constructor
    · constructor
      · intro _ i h1 h2
        rw [hnil] at h2
        have hz : (minorAndCandidate ([] : List Char)).2 = [] := rfl
        rw [hz] at h2
        simp at h2
        omega
      · intro _
        unfold getRootAndType
        rw [hnil]
        rfl
    · intro r m nt h
      unfold getRootAndType at h
      rw [hnil] at h
      exact Option.noConfusion h
  · cases hf : findRoot (minorAndCandidate s.toList).2 (minorAndCandidate s.toList).2.length with
    | some root =>
      have hcore := core_some s.toList hnil root hf
      constructor
      · constructor
        · intro habs
          unfold getRootAndType at habs
          rw [hcore] at habs
          exact Option.noConfusion habs
        · intro hall
          obtain ⟨i, hi0, hin, hr, hval, hmax⟩ := findRoot_eq_some hf
          exact absurd hval (hall i hi0 hin)
      · intro r m nt h
        unfold getRootAndType at h
        rw [hcore, Option.map_some'] at h
        rw [Option.some.injEq, Prod.mk.injEq, Prod.mk.injEq] at h
        obtain ⟨h1, _h2, _h3⟩ := h
        obtain ⟨i, hi0, hin, hr, hval, hmax⟩ := findRoot_eq_some hf
        exact ⟨i, hi0, hin, by rw [← h1, hr], hval, hmax⟩
    | none =>
      have hcore := core_none s.toList hnil hf
      constructor
      · constructor
        · intro _
          exact findRoot_eq_none.mp hf
        · intro _
          unfold getRootAndType
          rw [hcore]
          rfl
      · intro r m nt h
        unfold getRootAndType at h
        rw [hcore] at h
        exact Option.noConfusion h

/-- C3 witness: the longest-valid-prefix characterization evaluated on
`"Dbm7"`, whose root candidate is `"Db"`. -/
theorem c3_root_resolution_witness :
    ∃ i, 0 < i ∧ i ≤ (candOf "Dbm7").length
      ∧ "Db" = String.mk ((candOf "Dbm7").take i)
      ∧ isValidSpelling ((candOf "Dbm7").take i)
      ∧ ∀ j, i < j → j ≤ (candOf "Dbm7").length
          → ¬ isValidSpelling ((candOf "Dbm7").take j) :=
  (c3_root_resolution.1 "Dbm7").2 "Db" true NoteStyle.flat (by decide)

/-- C6: `parse("C#")` yields root C#, not minor, sharp style; `parse("Dbm7")`
yields root Db, minor, flat style; `parse("F")` yields root F, not minor,
natural style; and in general the resolved root's style is sharp if it
contains `'#'`, flat if it contains `'b'` or `'♭'`, and natural otherwise. -/
theorem c6_parse_examples_and_style :
    getRootAndType "C#" = some ("C#", false, NoteStyle.sharp)
    ∧ getRootAndType "Dbm7" = some ("Db", true, NoteStyle.flat)
    ∧ getRootAndType "F" = some ("F", false, NoteStyle.natural)
    ∧ ∀ s r m nt, getRootAndType s = some (r, m, nt) → nt = styleOfStr r := by
  refine ⟨by decide, by decide, by decide, ?_⟩
  intro s r m nt h
  by_cases hnil : s.toList = []
  · unfold getRootAndType at h
    rw [hnil] at h
    exact Option.noConfusion h
  · cases hf : findRoot (minorAndCandidate s.toList).2 (minorAndCandidate s.toList).2.length with
    | some root =>
      unfold getRootAndType at h
      rw [core_some s.toList hnil root hf, Option.map_some'] at h
      rw [Option.some.injEq, Prod.mk.injEq, Prod.mk.injEq] at h
      obtain ⟨h1, _h2, h3⟩ := h
      rw [← h3, ← h1]
      rfl
    | none =>
      unfold getRootAndType at h
      rw [core_none s.toList hnil hf] at h
      exact Option.noConfusion h

/-- C6 witness: the style rule evaluated on the parse of `"Dbm7"`. -/
theorem c6_parse_examples_and_style_witness : NoteStyle.flat = styleOfStr "Db" :=
  c6_parse_examples_and_style.2.2.2 "Dbm7" "Db" true NoteStyle.flat (by decide)

/-- C2 counterexample: in `"Cmm"` the final `'m'` occurs after the first
character and is the last character, so by the claim's if-and-only-if it is a
minor marker and the chord is minor; the code inspects only the first `'m'`
(which is followed by a letter) and parses `"Cmm"` as not minor. -/
theorem c2_counterexample :
    hasClaimMinorMarker "Cmm".toList = true
    ∧ getRootAndType "Cmm" = some ("C", false, NoteStyle.natural) := by
  decide

/-! Helper lemmas about the frequency ranker. -/

theorem firstIndexOf_cons_self (x : String) (xs : List String) :
    firstIndexOf x (x :: xs) = 0 := by
  rw [firstIndexOf, if_pos rfl]

theorem firstIndexOf_cons_ne {a x : String} (h : a ≠ x) (xs : List String) :
    firstIndexOf a (x :: xs) = firstIndexOf a xs + 1 := by
  rw [firstIndexOf, if_neg (fun hx => h hx.symm)]

theorem mem_insertDesc (x : String × Nat) : ∀ (t : List (String × Nat))
    (y : String × Nat), y ∈ insertDesc x t → y = x ∨ y ∈ t := by
  intro t
  induction t with
  | nil =>
    intro y h
    simp only [insertDesc] at h
    exact Or.inl (List.mem_singleton.mp h)
  | cons z zs ih =>
    intro y h
    by_cases hz : z.2 ≤ x.2
    · simp only [insertDesc] at h
      rw [if_pos hz] at h
      rcases List.mem_cons.mp h with h1 | h1
      · exact Or.inl h1
      · exact Or.inr h1
    · simp only [insertDesc] at h
      rw [if_neg hz] at h
      rcases List.mem_cons.mp h with h1 | h1
      · exact Or.inr (by rw [h1]; exact List.mem_cons_self z zs)
      · rcases ih y h1 with h2 | h2
        · exact Or.inl h2
        · exact Or.inr (List.mem_cons_of_mem z h2)

theorem mem_insertDesc_of (x : String × Nat) : ∀ (t : List (String × Nat))
    (y : String × Nat), y = x ∨ y ∈ t → y ∈ insertDesc x t := by
  intro t
  induction t with
  | nil =>
    intro y h
    simp only [insertDesc]
    rcases h with h | h
    · simp [h]
    · exact absurd h (List.not_mem_nil y)
  | cons z zs ih =>
    intro y h
    by_cases hz : z.2 ≤ x.2
    · simp only [insertDesc]
      rw [if_pos hz]
      rcases h with h | h
      · rw [h]; exact List.mem_cons_self x _
      · exact List.mem_cons_of_mem x h
    · simp only [insertDesc]
      rw [if_neg hz]
      rcases h with h | h
      · exact List.mem_cons_of_mem z (ih y (Or.inl h))
      · rcases List.mem_cons.mp h with h1 | h1
        · rw [h1]; exact List.mem_cons_self z _
        · exact List.mem_cons_of_mem z (ih y (Or.inr h1))

theorem mem_sortDesc : ∀ (t : List (String × Nat)) (y : String × Nat),
    y ∈ sortDesc t → y ∈ t := by
  intro t
  induction t with
  | nil =>
    intro y h
    simp [sortDesc] at h
  | cons x xs ih =>
    intro y h
    simp only [sortDesc] at h
    rcases mem_insertDesc x (sortDesc xs) y h with h1 | h1
    · rw [h1]; exact List.mem_cons_self x xs
    · exact List.mem_cons_of_mem x (ih y h1)

theorem mem_sortDesc_of : ∀ (t : List (String × Nat)) (y : String × Nat),
    y ∈ t → y ∈ sortDesc t := by
  intro t
  induction t with
  | nil =>
    intro y h
    exact absurd h (List.not_mem_nil y)
  | cons x xs ih =>
    intro y h
    simp only [sortDesc]
    rcases List.mem_cons.mp h with h1 | h1
    · exact mem_insertDesc_of x (sortDesc xs) y (Or.inl h1)
    · exact mem_insertDesc_of x (sortDesc xs) y (Or.inr (ih y h1))

theorem pairwise_insertDesc (f : String × Nat → Nat) (x : String × Nat) :
    ∀ (t : List (String × Nat)), t.Pairwise (rankedBefore f) →
      (∀ y ∈ t, x.2 = y.2 → f x < f y) →
      (insertDesc x t).Pairwise (rankedBefore f) := by
  intro t
  induction t with
  | nil =>
    intro _ _
    simp [insertDesc]
  | cons y ys ih =>
    intro hp hx
    rcases List.pairwise_cons.mp hp with ⟨hy, hys⟩
    by_cases h : y.2 ≤ x.2
    · simp only [insertDesc]
      rw [if_pos h]
      refine List.pairwise_cons.mpr ⟨?_, hp⟩
      intro z hz
      rcases List.mem_cons.mp hz with h1 | h1
      · rw [h1]
        rcases Nat.eq_or_lt_of_le h with he | hlt
        · exact Or.inr ⟨he.symm, hx y (List.mem_cons_self y ys) he.symm⟩
        · exact Or.inl hlt
      · rcases hy z h1 with h2 | ⟨h2, _⟩
        · exact Or.inl (lt_of_lt_of_le h2 h)
        · rcases Nat.eq_or_lt_of_le h with he | hlt
          · exact Or.inr ⟨he.symm.trans h2, hx z (List.mem_cons_of_mem y h1) (he.symm.trans h2)⟩
          · exact Or.inl (h2 ▸ hlt)
    · simp only [insertDesc]
      rw [if_neg h]
      refine List.pairwise_cons.mpr
        ⟨?_, ih hys (fun z hz he => hx z (List.mem_cons_of_mem y hz) he)⟩
      intro z hz
      rcases mem_insertDesc x ys z hz with h1 | h1
      · rw [h1]
        exact Or.inl (Nat.lt_of_not_le h)
      · exact hy z h1

theorem pairwise_sortDesc (f : String × Nat → Nat) :
    ∀ (t : List (String × Nat)),
      t.Pairwise (fun a b => a.2 = b.2 → f a < f b) →
      (sortDesc t).Pairwise (rankedBefore f) := by
  intro t
  induction t with
  | nil =>
    intro _
    simp [sortDesc]
  | cons x xs ih =>
    intro hp
    rcases List.pairwise_cons.mp hp with ⟨hx, hxs⟩
    simp only [sortDesc]
    exact pairwise_insertDesc f x (sortDesc xs) (ih hxs)
      (fun y hy he => hx y (mem_sortDesc xs y hy) he)

theorem pairwise_keysInOrder : ∀ l : List String,
    (keysInOrder l).Pairwise (fun a b => firstIndexOf a l < firstIndexOf b l) := by
  intro l
  induction l with
  | nil => simp [keysInOrder]
  | cons x xs ih =>
    simp only [keysInOrder]
    refine List.pairwise_cons.mpr ⟨?_, ?_⟩
    · intro y hy
      have hyne : y ≠ x := by simpa using (List.mem_filter.mp hy).2
      rw [firstIndexOf_cons_self, firstIndexOf_cons_ne hyne]
      omega
    · refine List.Pairwise.imp_of_mem ?_ (ih.filter _)
      intro a b ha hb hab
      have hane : a ≠ x := by simpa using (List.mem_filter.mp ha).2
      have hbne : b ≠ x := by simpa using (List.mem_filter.mp hb).2
      rw [firstIndexOf_cons_ne hane, firstIndexOf_cons_ne hbne]
      omega

theorem pairwise_tally (l : List String) :
    (tally l).Pairwise
      (fun a b => a.2 = b.2 → firstIndexOf a.1 l < firstIndexOf b.1 l) := by
  unfold tally
  rw [List.pairwise_map]
  refine (pairwise_keysInOrder l).imp ?_
  intro a b h _
  exact h

theorem mem_tally {l : List String} {p : String × Nat} (h : p ∈ tally l) :
    p.2 = l.count p.1 := by
  unfold tally at h
  rcases List.mem_map.mp h with ⟨k, _, rfl⟩
  rfl

/-- C7: for every sequence of rendered syllables, the frequency ranker yields
at most 3 (syllable, count) pairs whose counts are the occurrence counts in
the sequence, ordered by strictly descending count with ties broken by the
order of first encounter in the sequence, and no entry it keeps is outranked
by one it leaves out. -/
theorem c7_frequency_ranker : ∀ l : List String,
    (mostCommon3 l).length ≤ 3
    ∧ (∀ p ∈ mostCommon3 l, p.2 = l.count p.1)
    ∧ (mostCommon3 l).Pairwise (rankedBefore (fun p => firstIndexOf p.1 l))
    ∧ (∀ p ∈ tally l, ¬ p ∈ mostCommon3 l → ∀ q ∈ mostCommon3 l,
        rankedBefore (fun p => firstIndexOf p.1 l) q p) := by
  intro l
  refine ⟨?_, ?_, ?_, ?_⟩
  · exact List.length_take_le 3 _
  · intro p hp
    exact mem_tally (mem_sortDesc _ p (List.take_subset _ _ hp))
  · exact List.Pairwise.sublist (List.take_sublist 3 _)
      (pairwise_sortDesc _ _ (pairwise_tally l))
  · intro p hp hnot q hq
    have hps : p ∈ sortDesc (tally l) := mem_sortDesc_of _ p hp
    have hpw := pairwise_sortDesc (fun p => firstIndexOf p.1 l) _ (pairwise_tally l)
    rw [← List.take_append_drop 3 (sortDesc (tally l))] at hps hpw
    rcases List.mem_append.mp hps with h1 | h1
    · exact absurd h1 hnot
    · exact (List.pairwise_append.mp hpw).2.2 q hq p h1

/-- C7 witness: the count conjunct evaluated on the sequence
`["do", "re", "do"]` at the top-ranked pair `("do", 2)`. -/
theorem c7_frequency_ranker_witness :
    (2 : Nat) = (["do", "re", "do"] : List String).count "do" :=
  (c7_frequency_ranker ["do", "re", "do"]).2.1 ("do", 2) (by decide)

end Pentatonic
